import Mathlib

/-!
Shallow embedding of `visvis/processing/lineToMesh.py`.

The point/vector primitive (`visvis.pypoints.Point`) is modelled as a record of
three real numbers with the standard componentwise operations; numpy float
arithmetic is idealised as real arithmetic.  Fallible numpy operations
(`raise ValueError`, division by zero, reductions over empty arrays) are
modelled by returning `Except`.
-/

namespace Visvis

/-- A 3-component vector, modelling `visvis.pypoints.Point`. -/
structure Point where
  x : ℝ
  y : ℝ
  z : ℝ

/-- The zero point, used as the out-of-range default for list indexing. -/
def pZero : Point := ⟨0, 0, 0⟩

namespace Point

/-- Componentwise addition. -/
def add (p q : Point) : Point := ⟨p.x + q.x, p.y + q.y, p.z + q.z⟩

/-- Componentwise subtraction. -/
def sub (p q : Point) : Point := ⟨p.x - q.x, p.y - q.y, p.z - q.z⟩

/-- Scalar multiplication `s * p`. -/
def smul (s : ℝ) (p : Point) : Point := ⟨s * p.x, s * p.y, s * p.z⟩

/-- Euclidean inner product. -/
def dot (p q : Point) : ℝ := p.x * q.x + p.y * q.y + p.z * q.z

/-- Squared Euclidean norm. -/
def normSq (p : Point) : ℝ := dot p p

/-- Euclidean norm, `Point.norm` in visvis. -/
noncomputable def norm (p : Point) : ℝ := Real.sqrt (normSq p)

/-- `p.distance(q)` in visvis: the Euclidean distance. -/
noncomputable def distance (p q : Point) : ℝ := norm (sub p q)

/-- Cross product of two vectors. -/
def cross (p q : Point) : Point :=
  ⟨p.y * q.z - p.z * q.y, p.z * q.x - p.x * q.z, p.x * q.y - p.y * q.x⟩

/-- `p.normalize()` in visvis: scale to unit length. -/
noncomputable def normalize (p : Point) : Point := smul (1 / norm p) p

theorem ext_xyz {p q : Point} (hx : p.x = q.x) (hy : p.y = q.y) (hz : p.z = q.z) :
    p = q := by
  cases p; cases q; simp_all

theorem normSq_nonneg (p : Point) : 0 ≤ normSq p := by
  have hx := mul_self_nonneg p.x
  have hy := mul_self_nonneg p.y
  have hz := mul_self_nonneg p.z
  simp only [normSq, dot]
  linarith

theorem norm_nonneg (p : Point) : 0 ≤ norm p := Real.sqrt_nonneg _

theorem sq_norm (p : Point) : norm p ^ 2 = normSq p :=
  Real.sq_sqrt (normSq_nonneg p)

theorem norm_eq_one_iff {p : Point} : norm p = 1 ↔ normSq p = 1 := by
  unfold norm
  exact Real.sqrt_eq_one

theorem norm_eq_zero_iff {p : Point} : norm p = 0 ↔ normSq p = 0 := by
  unfold norm
  exact Real.sqrt_eq_zero (normSq_nonneg p)

theorem norm_pos_of_normSq_pos {p : Point} (h : 0 < normSq p) : 0 < norm p := by
  rcases lt_or_eq_of_le (norm_nonneg p) with h' | h'
  · exact h'
  · exfalso
    have : normSq p = 0 := norm_eq_zero_iff.mp h'.symm
    linarith

theorem dot_comm (p q : Point) : dot p q = dot q p := by
  simp only [dot]; ring

/-- The cross product is orthogonal to its first argument. -/
theorem dot_cross_self_left (p q : Point) : dot (cross p q) p = 0 := by
  simp only [dot, cross]; ring

/-- The cross product is orthogonal to its second argument. -/
theorem dot_cross_self_right (p q : Point) : dot (cross p q) q = 0 := by
  simp only [dot, cross]; ring

/-- Lagrange's identity for the cross product. -/
theorem normSq_cross (p q : Point) :
    normSq (cross p q) = normSq p * normSq q - (dot p q) ^ 2 := by
  simp only [normSq, dot, cross]; ring

theorem normSq_smul (s : ℝ) (p : Point) : normSq (smul s p) = s ^ 2 * normSq p := by
  simp only [normSq, dot, smul]; ring

theorem dot_smul_left (s : ℝ) (p q : Point) : dot (smul s p) q = s * dot p q := by
  simp only [dot, smul]; ring

theorem dot_smul_right (s : ℝ) (p q : Point) : dot p (smul s q) = s * dot p q := by
  simp only [dot, smul]; ring

theorem norm_smul (s : ℝ) (p : Point) : norm (smul s p) = |s| * norm p := by
  unfold norm
  rw [normSq_smul, Real.sqrt_mul (sq_nonneg s), Real.sqrt_sq_eq_abs]

theorem norm_normalize {p : Point} (h : 0 < normSq p) : norm (normalize p) = 1 := by
  have hp : 0 < norm p := norm_pos_of_normSq_pos h
  unfold normalize
  rw [norm_smul]
  rw [abs_of_pos (by positivity)]
  field_simp

theorem dot_normalize_left (p q : Point) :
    dot (normalize p) q = (1 / norm p) * dot p q := dot_smul_left _ _ _

/-- `smul (-1)` is an involution. -/
theorem smul_neg_one_smul_neg_one (p : Point) : smul (-1) (smul (-1) p) = p := by
  cases p; simp [smul]

theorem normSq_smul_neg_one (p : Point) : normSq (smul (-1) p) = normSq p := by
  simp only [normSq, dot, smul]; ring

/-- Expansion used for comparing `distance c p` with `distance c (-p)`. -/
theorem normSq_sub_expand (c p : Point) :
    normSq (sub c p) = normSq c - 2 * dot c p + normSq p := by
  simp only [normSq, dot, sub]; ring

theorem normSq_sub_neg_expand (c p : Point) :
    normSq (sub c (smul (-1) p)) = normSq c + 2 * dot c p + normSq p := by
  simp only [normSq, dot, sub, smul]; ring

/-- Comparing distances to `p` and to `-p` is equivalent to the sign of the
inner product. -/
theorem distance_le_distance_neg_iff (c p : Point) :
    distance c p ≤ distance c (smul (-1) p) ↔ 0 ≤ dot c p := by
  unfold distance norm
  constructor
  · intro h
    by_contra hneg
    push_neg at hneg
    have hlt : normSq (sub c (smul (-1) p)) < normSq (sub c p) := by
      rw [normSq_sub_neg_expand, normSq_sub_expand]; linarith
    have := Real.sqrt_lt_sqrt (normSq_nonneg _) hlt
    linarith
  · intro h
    apply Real.sqrt_le_sqrt
    rw [normSq_sub_neg_expand, normSq_sub_expand]; linarith

/-- Bessel-type inequality for an orthonormal pair. -/
theorem bessel_pair {c d : Point} (n : Point) (hc : normSq c = 1) (hd : normSq d = 1)
    (hcd : dot c d = 0) : (dot c n) ^ 2 + (dot d n) ^ 2 ≤ normSq n := by
  have h0 : 0 ≤ normSq (sub (sub n (smul (dot c n) c)) (smul (dot d n) d)) :=
    normSq_nonneg _
  have hexp : normSq (sub (sub n (smul (dot c n) c)) (smul (dot d n) d)) =
      normSq n - (dot c n) ^ 2 - (dot d n) ^ 2 + (dot c n) ^ 2 * (normSq c - 1) +
        (dot d n) ^ 2 * (normSq d - 1) + 2 * (dot c n) * (dot d n) * (dot c d) := by
    simp only [normSq, dot, sub, smul]; ring
  rw [hexp, hc, hd, hcd] at h0
  linarith

end Point

/-! ## `getSpanVectors` (lineToMesh.py lines 11-43)

```python
a1 = d.cross(normal)
if a1.norm() < 0.001:
    b1 = c.cross(normal)
    a1 = b1.cross(normal)
a2 = -1 * a1
if c.distance(a1) > c.distance(a2):
    a1 = a2
b1 = a1.cross(normal)
return a1.normalize(), b1.normalize()
```
-/

/-- The candidate `a1` after the degeneracy fallback (lines 21-27). -/
noncomputable def spanA (normal c d : Point) : Point :=
  if (d.cross normal).norm < 0.001 then
    ((c.cross normal).cross normal)
  else
    d.cross normal

open Classical in
/-- The candidate `a1` after the sign disambiguation against `prevA` (lines 29-32). -/
noncomputable def spanASigned (normal c d : Point) : Point :=
  if c.distance (spanA normal c d) >
      c.distance (Point.smul (-1) (spanA normal c d)) then
    Point.smul (-1) (spanA normal c d)
  else
    spanA normal c d

/-- `getSpanVectors(normal, prevA, prevB)` from lineToMesh.py. -/
noncomputable def getSpanVectors (normal c d : Point) : Point × Point :=
  ((spanASigned normal c d).normalize,
    ((spanASigned normal c d).cross normal).normalize)

theorem spanA_dot_normal (normal c d : Point) : Point.dot (spanA normal c d) normal = 0 := by
  unfold spanA
  split
  · exact Point.dot_cross_self_right _ _
  · exact Point.dot_cross_self_right _ _

theorem spanA_normSq_pos {normal c d : Point} (hn : Point.normSq normal = 1)
    (hc : Point.normSq c = 1) (hd : Point.normSq d = 1) (hcd : Point.dot c d = 0) :
    0 < Point.normSq (spanA normal c d) := by
  unfold spanA
  split
  · next hdeg =>
    -- degenerate branch: `normal` is within 0.001 of being parallel to `d`
    have hlag_d : Point.normSq (d.cross normal) =
        1 - (Point.dot d normal) ^ 2 := by
      rw [Point.normSq_cross, hd, hn]; ring
    have hsmall : Point.normSq (d.cross normal) < 0.001 ^ 2 := by
      have h1 : Point.norm (d.cross normal) < 0.001 := hdeg
      have h2 : 0 ≤ Point.norm (d.cross normal) := Point.norm_nonneg _
      have h3 : Point.norm (d.cross normal) ^ 2 < 0.001 ^ 2 := by nlinarith
      rw [Point.sq_norm] at h3
      exact h3
    have hbessel := Point.bessel_pair normal hc hd hcd
    rw [hn] at hbessel
    have hcn : (Point.dot c normal) ^ 2 < 0.001 ^ 2 := by
      have : 1 - (Point.dot d normal) ^ 2 < 0.001 ^ 2 := by
        rw [← hlag_d]; exact hsmall
      nlinarith
    have hlag_cn : Point.normSq (c.cross normal) = 1 - (Point.dot c normal) ^ 2 := by
      rw [Point.normSq_cross, hc, hn]; ring
    have hlag_a : Point.normSq ((c.cross normal).cross normal) =
        Point.normSq (c.cross normal) := by
      rw [Point.normSq_cross, hn, Point.dot_cross_self_right]; ring
    rw [hlag_a, hlag_cn]
    nlinarith
  · next hnondeg =>
    push_neg at hnondeg
    have h2 : (0.001 : ℝ) ^ 2 ≤ Point.norm (d.cross normal) ^ 2 := by
      have := Point.norm_nonneg (d.cross normal)
      nlinarith
    rw [Point.sq_norm] at h2
    nlinarith

theorem spanASigned_dot_normal (normal c d : Point) :
    Point.dot (spanASigned normal c d) normal = 0 := by
  unfold spanASigned
  split
  · rw [Point.dot_smul_left, spanA_dot_normal]; ring
  · exact spanA_dot_normal normal c d

theorem spanASigned_normSq_pos {normal c d : Point} (hn : Point.normSq normal = 1)
    (hc : Point.normSq c = 1) (hd : Point.normSq d = 1) (hcd : Point.dot c d = 0) :
    0 < Point.normSq (spanASigned normal c d) := by
  unfold spanASigned
  split
  · rw [Point.normSq_smul_neg_one]
    exact spanA_normSq_pos hn hc hd hcd
  · exact spanA_normSq_pos hn hc hd hcd

theorem spanASigned_nearest (normal c d : Point) :
    Point.distance c (spanASigned normal c d) ≤
      Point.distance c (Point.smul (-1) (spanASigned normal c d)) := by
  unfold spanASigned
  split
  · next hgt =>
    rw [Point.smul_neg_one_smul_neg_one]
    exact le_of_lt hgt
  · next hle =>
    push_neg at hle
    exact hle

/-- Claim C7: on a unit tangent and an orthonormal previous pair — including the
degenerate fallback branch — `getSpanVectors` returns a pair of unit vectors,
orthogonal to each other and to the tangent, with the sign of `a` chosen so
that its distance to `prevA` is no larger than that of `-a`. -/
theorem getSpanVectors_orthonormal (normal c d : Point)
    (hn : Point.norm normal = 1) (hc : Point.norm c = 1) (hd : Point.norm d = 1)
    (hcd : Point.dot c d = 0) :
    Point.norm (getSpanVectors normal c d).1 = 1 ∧
    Point.norm (getSpanVectors normal c d).2 = 1 ∧
    Point.dot (getSpanVectors normal c d).1 (getSpanVectors normal c d).2 = 0 ∧
    Point.dot (getSpanVectors normal c d).1 normal = 0 ∧
    Point.dot (getSpanVectors normal c d).2 normal = 0 ∧
    Point.distance c (getSpanVectors normal c d).1 ≤
      Point.distance c (Point.smul (-1) (getSpanVectors normal c d).1) := by
  rw [Point.norm_eq_one_iff] at hn hc hd
  set S := spanASigned normal c d with hS
  have hSpos : 0 < Point.normSq S := spanASigned_normSq_pos hn hc hd hcd
  have hSnorm : 0 < Point.norm S := Point.norm_pos_of_normSq_pos hSpos
  have hSn : Point.dot S normal = 0 := spanASigned_dot_normal normal c d
  set B := S.cross normal with hB
  have hBpos : 0 < Point.normSq B := by
    rw [hB, Point.normSq_cross, hn, hSn]
    simpa using hSpos
  have hBn : Point.dot B normal = 0 := Point.dot_cross_self_right _ _
  have hSB : Point.dot S B = 0 := by
    rw [hB]
    have := Point.dot_cross_self_left S normal
    calc Point.dot S (S.cross normal) = Point.dot (S.cross normal) S := Point.dot_comm _ _
    _ = 0 := this
  have hBnorm : 0 < Point.norm B := Point.norm_pos_of_normSq_pos hBpos
  refine ⟨?_, ?_, ?_, ?_, ?_, ?_⟩
  · exact Point.norm_normalize hSpos
  · exact Point.norm_normalize hBpos
  · show Point.dot S.normalize B.normalize = 0
    unfold Point.normalize
    rw [Point.dot_smul_left, Point.dot_smul_right, hSB]
    ring
  · show Point.dot S.normalize normal = 0
    unfold Point.normalize
    rw [Point.dot_smul_left, hSn]; ring
  · show Point.dot B.normalize normal = 0
    unfold Point.normalize
    rw [Point.dot_smul_left, hBn]; ring
  · show Point.distance c S.normalize ≤ Point.distance c (Point.smul (-1) S.normalize)
    rw [Point.distance_le_distance_neg_iff]
    have h1 : 0 ≤ Point.dot c S := by
      have := spanASigned_nearest normal c d
      rw [Point.distance_le_distance_neg_iff] at this
      exact this
    unfold Point.normalize
    rw [Point.dot_smul_right]
    have : 0 ≤ 1 / Point.norm S := by positivity
    exact mul_nonneg this h1

/-- Concrete instantiation of `getSpanVectors_orthonormal` at the initial frame
used by `lineToMesh` (tangent `(1,0,0)`, previous pair `(0,0,1)`, `(0,1,0)`). -/
theorem getSpanVectors_orthonormal_witness :
    (Point.norm ⟨1, 0, 0⟩ = 1 ∧ Point.norm ⟨0, 0, 1⟩ = 1 ∧ Point.norm ⟨0, 1, 0⟩ = 1 ∧
      Point.dot ⟨0, 0, 1⟩ ⟨0, 1, 0⟩ = 0) ∧
    (Point.norm (getSpanVectors ⟨1, 0, 0⟩ ⟨0, 0, 1⟩ ⟨0, 1, 0⟩).1 = 1 ∧
     Point.norm (getSpanVectors ⟨1, 0, 0⟩ ⟨0, 0, 1⟩ ⟨0, 1, 0⟩).2 = 1 ∧
     Point.dot (getSpanVectors ⟨1, 0, 0⟩ ⟨0, 0, 1⟩ ⟨0, 1, 0⟩).1
       (getSpanVectors ⟨1, 0, 0⟩ ⟨0, 0, 1⟩ ⟨0, 1, 0⟩).2 = 0 ∧
     Point.dot (getSpanVectors ⟨1, 0, 0⟩ ⟨0, 0, 1⟩ ⟨0, 1, 0⟩).1 ⟨1, 0, 0⟩ = 0 ∧
     Point.dot (getSpanVectors ⟨1, 0, 0⟩ ⟨0, 0, 1⟩ ⟨0, 1, 0⟩).2 ⟨1, 0, 0⟩ = 0 ∧
     Point.distance ⟨0, 0, 1⟩ (getSpanVectors ⟨1, 0, 0⟩ ⟨0, 0, 1⟩ ⟨0, 1, 0⟩).1 ≤
       Point.distance ⟨0, 0, 1⟩
         (Point.smul (-1) (getSpanVectors ⟨1, 0, 0⟩ ⟨0, 0, 1⟩ ⟨0, 1, 0⟩).1)) := by
  have h1 : Point.norm ⟨1, 0, 0⟩ = 1 := by
    rw [Point.norm_eq_one_iff]
    simp [Point.normSq, Point.dot]
  have h2 : Point.norm ⟨0, 0, 1⟩ = 1 := by
    rw [Point.norm_eq_one_iff]
    simp [Point.normSq, Point.dot]
  have h3 : Point.norm ⟨0, 1, 0⟩ = 1 := by
    rw [Point.norm_eq_one_iff]
    simp [Point.normSq, Point.dot]
  have h4 : Point.dot (⟨0, 0, 1⟩ : Point) ⟨0, 1, 0⟩ = 0 := by
    simp [Point.dot]
  exact ⟨⟨h1, h2, h3, h4⟩, getSpanVectors_orthonormal _ _ _ h1 h2 h3 h4⟩

/-! ## `getCircle` (lines 46-58) and the face topology (lines 210-228) -/

/-- `getCircle(angles_cos, angles_sin, a, b)`: sample points
`cos(t)*a + sin(t)*b` for each precomputed `(cos t, sin t)` pair. -/
noncomputable def getCircle (cs : List (ℝ × ℝ)) (a b : Point) : List Point :=
  cs.map (fun t => Point.add (Point.smul t.1 a) (Point.smul t.2 b))

/-- One quad face: a 4-tuple of vertex indices (one row of the reshaped
`faces` array). -/
structure Quad where
  i0 : ℕ
  i1 : ℕ
  i2 : ℕ
  i3 : ℕ
deriving DecidableEq, Repr

/-- Lines 212-221: `firstFace = [0, 1, v+1, v]` shifted by `j` for
`j in range(vertex_num-1)`, then `lastFace = [v-1, 0, v, 2v-1]`. -/
def oneRound (v : ℕ) : List Quad :=
  (List.range (v - 1)).map (fun j => ⟨j, j + 1, v + j + 1, v + j⟩) ++
    [⟨v - 1, 0, v, 2 * v - 1⟩]

/-- Add an offset to all four indices of a quad (`oneRound + i*vertex_num`). -/
def offsetQuad (o : ℕ) (q : Quad) : Quad := ⟨q.i0 + o, q.i1 + o, q.i2 + o, q.i3 + o⟩

/-- Lines 223-228: replicate `oneRound` offset by `i*vertex_num` for each
`i in range(n_cylinders-1)`. -/
def buildFaces (n_cylinders vertex_num : ℕ) : List Quad :=
  (List.range (n_cylinders - 1)).flatMap
    (fun i => (oneRound vertex_num).map (offsetQuad (i * vertex_num)))

/-! ## `lineToMesh` (lines 61-231) -/

/-- The returned `BaseMesh` payload: vertices, per-vertex normals, quad faces. -/
structure Mesh where
  vertices : List Point
  normals : List Point
  faces : List Quad

/-- The duck-typed `radius` argument: a scalar or a per-point sequence. -/
inductive Radius where
  | scalar (r : ℝ)
  | seq (rs : List ℝ)

/-- Lines 74-80: a sequence radius must match the curve length (else
`ValueError`); a scalar is broadcast via `radius*np.ones(len(pp))`. -/
noncomputable def processRadius (pp : List Point) (radius : Radius) :
    Except String (List ℝ) :=
  match radius with
  | .seq rs =>
      if rs.length ≠ pp.length then
        Except.error "Len of radii much match len of points."
      else
        Except.ok rs
  | .scalar r => Except.ok (List.replicate pp.length r)

/-- The number of samples produced by
`np.arange(0, pi*2-0.0001, pi*2/vertex_num)` (line 83), i.e.
`ceil(stop/step)` in exact arithmetic. -/
noncomputable def numAngles (vertex_num : ℕ) : ℕ :=
  ⌈(2 * Real.pi - 0.0001) / (2 * Real.pi / vertex_num)⌉₊

/-- Lines 83-85: the precomputed `(cos, sin)` table. -/
noncomputable def anglePairs (vertex_num : ℕ) : List (ℝ × ℝ) :=
  (List.range (numAngles vertex_num)).map
    (fun (k : ℕ) => (Real.cos ((k : ℝ) * (2 * Real.pi / vertex_num)),
                     Real.sin ((k : ℝ) * (2 * Real.pi / vertex_num))))

open Classical in
/-- Line 92: `lclosed = (pp[0] == pp[-1])`, exact equality. -/
noncomputable def isClosed (pp : List Point) : Bool :=
  if pp.getD 0 pZero = pp.getD (pp.length - 1) pZero then true else false

/-- Lines 94-100: forward differences `pp[1:] - pp[:-1]`, one appended wrap
(closed) or repeat (open) entry, then `-1 * normals.normalize()`. -/
noncomputable def lineNormals (pp : List Point) : List Point :=
  ((List.zipWith Point.sub (pp.drop 1) pp.dropLast) ++
    [if isClosed pp then
        Point.sub (pp.getD 0 pZero) (pp.getD 1 pZero)
      else
        Point.sub (pp.getD (pp.length - 2) pZero) (pp.getD (pp.length - 1) pZero)]).map
    (fun q => Point.smul (-1) q.normalize)

/-- Lines 87-89: `bufdist = min(radius.max(), dists.min()/2.2)` where `dists`
are the consecutive point distances. -/
noncomputable def bufdistOf (pp : List Point) (rs : List ℝ) : ℝ :=
  min (rs.max?.getD 0)
    ((List.zipWith Point.distance (pp.drop 1) pp.dropLast).min?.getD 0 / 2.2)

/-- The state shared by the sweep loop and the caps. -/
structure SweepCtx where
  pp : List Point
  radius : List ℝ
  normals : List Point
  angles : List (ℝ × ℝ)
  bufdist : ℝ
  lclosed : Bool

/-- Bundle the precomputed data from lines 74-100. -/
noncomputable def mkCtx (pp : List Point) (rs : List ℝ) (vertex_num : ℕ) : SweepCtx :=
  { pp := pp, radius := rs, normals := lineNormals pp,
    angles := anglePairs vertex_num, bufdist := bufdistOf pp rs,
    lclosed := isClosed pp }

/-- Lines 109-113: the frame before the start cap,
`getSpanVectors(normals[0], Point(0,0,1), Point(0,1,0))`. -/
noncomputable def frame0 (c : SweepCtx) : Point × Point :=
  getSpanVectors (c.normals.getD 0 pZero) ⟨0, 0, 1⟩ ⟨0, 1, 0⟩

/-- Whether iteration `i` of the sweep loop emits a joint ring: the loop
`break`s (lines 162-163) exactly when the curve is open and `i == len(pp)-2`. -/
def jointB (c : SweepCtx) (i : ℕ) : Bool :=
  c.lclosed || decide (i ≠ c.pp.length - 2)

/-- Line 140: the frame used by the two main rings of iteration `i`. -/
noncomputable def frameRing (c : SweepCtx) (i : ℕ) (f : Point × Point) : Point × Point :=
  getSpanVectors (c.normals.getD i pZero) f.1 f.2

/-- Line 166: `normal12 = (normal1 + normal2).normalize()`. -/
noncomputable def normal12 (c : SweepCtx) (i : ℕ) : Point :=
  (Point.add (c.normals.getD i pZero) (c.normals.getD (i + 1) pZero)).normalize

/-- Line 171: the frame used by the joint ring of iteration `i`. -/
noncomputable def frameJoint (c : SweepCtx) (i : ℕ) (f : Point × Point) : Point × Point :=
  getSpanVectors (normal12 c i) f.1 f.2

/-- The `(a, b)` state after one iteration of the sweep loop. -/
noncomputable def frameStep (c : SweepCtx) (i : ℕ) (f : Point × Point) : Point × Point :=
  if jointB c i then frameJoint c i (frameRing c i f) else frameRing c i f

/-- The `(a, b)` state entering iteration `i` of the sweep loop. -/
noncomputable def frameAt (c : SweepCtx) : ℕ → Point × Point
  | 0 => frame0 c
  | i + 1 => frameStep c i (frameAt c i)

/-- `float(r)*circm + t`: scale a unit circle and translate it. -/
noncomputable def translateRing (r : ℝ) (t : Point) (circ : List Point) : List Point :=
  circ.map (fun q => Point.add (Point.smul r q) t)

/-- Line 144: `point1 + bufdist*normal1`. -/
noncomputable def ring1Center (c : SweepCtx) (i : ℕ) : Point :=
  Point.add (c.pp.getD i pZero) (Point.smul c.bufdist (c.normals.getD i pZero))

/-- Line 154: `point2 - bufdist*normal1`. -/
noncomputable def ring2Center (c : SweepCtx) (i : ℕ) : Point :=
  Point.sub (c.pp.getD (i + 1) pZero) (Point.smul c.bufdist (c.normals.getD i pZero))

/-- Lines 167-168: the joint center
`0.5858*point2 + 0.4142*(0.5*((point2+bufdist*normal2) + (point2-bufdist*normal1)))`. -/
noncomputable def jointCenter (c : SweepCtx) (i : ℕ) : Point :=
  Point.add (Point.smul 0.5858 (c.pp.getD (i + 1) pZero))
    (Point.smul 0.4142 (Point.smul 0.5
      (Point.add
        (Point.add (c.pp.getD (i + 1) pZero)
          (Point.smul c.bufdist (c.normals.getD (i + 1) pZero)))
        (Point.sub (c.pp.getD (i + 1) pZero)
          (Point.smul c.bufdist (c.normals.getD i pZero))))))

/-- The vertex rings emitted by iteration `i` of the sweep loop
(lines 130-178): two main cylinder rings, then — unless the loop breaks —
one joint ring. -/
noncomputable def emitIter (c : SweepCtx) (i : ℕ) (f : Point × Point) :
    List (List Point) :=
  let f1 := frameRing c i f
  let circm := getCircle c.angles f1.1 f1.2
  let ring1 := translateRing (c.radius.getD i 0) (ring1Center c i) circm
  let ring2 := translateRing (c.radius.getD (i + 1) 0) (ring2Center c i) circm
  if jointB c i then
    let fj := frameJoint c i f1
    [ring1, ring2,
      translateRing (c.radius.getD (i + 1) 0) (jointCenter c i)
        (getCircle c.angles fj.1 fj.2)]
  else
    [ring1, ring2]

/-- The surface-normal rings emitted by iteration `i` (the unscaled circle
coordinates, lines 146/156/177). -/
noncomputable def emitNormalsIter (c : SweepCtx) (i : ℕ) (f : Point × Point) :
    List (List Point) :=
  let f1 := frameRing c i f
  let circm := getCircle c.angles f1.1 f1.2
  if jointB c i then
    let fj := frameJoint c i f1
    [circm, circm, getCircle c.angles fj.1 fj.2]
  else
    [circm, circm]

/-- All vertex rings of the sweep loop, in emission order. -/
noncomputable def sweepRings (c : SweepCtx) : List (List Point) :=
  (List.range (c.pp.length - 1)).flatMap (fun i => emitIter c i (frameAt c i))

/-- All surface-normal rings of the sweep loop. -/
noncomputable def sweepNormalRings (c : SweepCtx) : List (List Point) :=
  (List.range (c.pp.length - 1)).flatMap (fun i => emitNormalsIter c i (frameAt c i))

/-- Line 120: the cap ring scale `r = (1-(j/5.0)**2)**0.5`. -/
noncomputable def capScale (j : ℕ) : ℝ := Real.sqrt (1 - ((j : ℝ) / 5) ^ 2)

/-- Lines 118-127: one ring of the start cap,
`float(r*radius[0])*circm + (pp[0]-(j/5.0)*bufdist*normals[0])`. -/
noncomputable def startCapRing (c : SweepCtx) (j : ℕ) : List Point :=
  translateRing (capScale j * c.radius.getD 0 0)
    (Point.sub (c.pp.getD 0 pZero)
      (Point.smul ((j : ℝ) / 5 * c.bufdist) (c.normals.getD 0 pZero)))
    (getCircle c.angles (frame0 c).1 (frame0 c).2)

/-- The start cap: `for j in range(5, 0, -1)`. -/
noncomputable def startCap (c : SweepCtx) : List (List Point) :=
  [5, 4, 3, 2, 1].map (startCapRing c)

/-- Lines 122-126: cap surface normals `-1*(circmp - apex).normalize()`. -/
noncomputable def capNormalsRing (apex : Point) (ring : List Point) : List Point :=
  ring.map (fun q => Point.smul (-1) (Point.sub q apex).normalize)

/-- Surface normals of the start cap. -/
noncomputable def startCapNormals (c : SweepCtx) : List (List Point) :=
  [5, 4, 3, 2, 1].map (fun j => capNormalsRing (c.pp.getD 0 pZero) (startCapRing c j))

/-- Lines 184-193: one ring of the end cap,
`float(r*radius[-1])*circm + (pp[-1]+(j/5.0)*bufdist*normals[-1])`, where
`circm` is the last circle computed by the sweep loop. -/
noncomputable def endCapRing (c : SweepCtx) (j : ℕ) : List Point :=
  translateRing (capScale j * c.radius.getD (c.radius.length - 1) 0)
    (Point.add (c.pp.getD (c.pp.length - 1) pZero)
      (Point.smul ((j : ℝ) / 5 * c.bufdist)
        (c.normals.getD (c.normals.length - 1) pZero)))
    (getCircle c.angles (frameAt c (c.pp.length - 1)).1 (frameAt c (c.pp.length - 1)).2)

/-- The end cap: `for j in range(0, 6)`. -/
noncomputable def endCap (c : SweepCtx) : List (List Point) :=
  [0, 1, 2, 3, 4, 5].map (endCapRing c)

/-- Surface normals of the end cap. -/
noncomputable def endCapNormals (c : SweepCtx) : List (List Point) :=
  [0, 1, 2, 3, 4, 5].map
    (fun j => capNormalsRing (c.pp.getD (c.pp.length - 1) pZero) (endCapRing c j))

/-- Line 200: the frame of the final ring of a closed curve,
`getSpanVectors(normals[-1], a, b)`. -/
noncomputable def closedEndFrame (c : SweepCtx) : Point × Point :=
  getSpanVectors (c.normals.getD (c.normals.length - 1) pZero)
    (frameAt c (c.pp.length - 1)).1 (frameAt c (c.pp.length - 1)).2

/-- Line 204: the center of the final ring of a closed curve,
`point1 + bufdist*normal1` with `point1 = pp[-1]`, `normal1 = normals[-1]`. -/
noncomputable def closedEndCenter (c : SweepCtx) : Point :=
  Point.add (c.pp.getD (c.pp.length - 1) pZero)
    (Point.smul c.bufdist (c.normals.getD (c.normals.length - 1) pZero))

/-- Lines 194-207: the final ring of a closed curve, radius `radius[0]`. -/
noncomputable def closedEndRing (c : SweepCtx) : List Point :=
  translateRing (c.radius.getD 0 0) (closedEndCenter c)
    (getCircle c.angles (closedEndFrame c).1 (closedEndFrame c).2)

/-- Surface normals of the final ring of a closed curve (line 206). -/
noncomputable def closedEndNormalRing (c : SweepCtx) : List Point :=
  getCircle c.angles (closedEndFrame c).1 (closedEndFrame c).2

/-- All vertex rings, in emission order: optional start cap, sweep loop,
then end cap (open) or one closing ring (closed). -/
noncomputable def allRings (c : SweepCtx) : List (List Point) :=
  (if c.lclosed then [] else startCap c) ++ sweepRings c ++
    (if c.lclosed then [closedEndRing c] else endCap c)

/-- All surface-normal rings, in emission order. -/
noncomputable def allNormalRings (c : SweepCtx) : List (List Point) :=
  (if c.lclosed then [] else startCapNormals c) ++ sweepNormalRings c ++
    (if c.lclosed then [closedEndNormalRing c] else endCapNormals c)

/-- `lineToMesh(pp, radius, vertex_num)`.  Failure modes, in source order:
the radius length check (line 75), `pi*2/vertex_num` with `vertex_num = 0`
(line 83), and the empty-array reductions `radius.max()` / `dists.min()`
(line 89) when the curve has fewer than 2 points. -/
noncomputable def lineToMesh (pp : List Point) (radius : Radius) (vertex_num : ℕ) :
    Except String Mesh :=
  match processRadius pp radius with
  | Except.error e => Except.error e
  | Except.ok rs =>
    if vertex_num = 0 then
      Except.error "ZeroDivisionError: float division by zero"
    else if pp.length < 2 then
      Except.error "zero-size array to reduction operation"
    else
      let c := mkCtx pp rs vertex_num
      Except.ok
        { vertices := (allRings c).flatten
          normals := (allNormalRings c).flatten
          faces := buildFaces (allRings c).length vertex_num }

/-! ## Counting infrastructure -/

theorem length_translateRing (r : ℝ) (t : Point) (circ : List Point) :
    (translateRing r t circ).length = circ.length := List.length_map _ _

theorem length_getCircle (cs : List (ℝ × ℝ)) (a b : Point) :
    (getCircle cs a b).length = cs.length := List.length_map _ _

theorem length_anglePairs (v : ℕ) : (anglePairs v).length = numAngles v := by
  rw [anglePairs, List.length_map, List.length_range]

theorem emitIter_length (c : SweepCtx) (i : ℕ) (f : Point × Point) :
    (emitIter c i f).length = if jointB c i then 3 else 2 := by
  by_cases h : jointB c i
  · simp [emitIter, h]
  · simp [emitIter, h]

/-- Every emitted vertex ring has one vertex per precomputed angle. -/
theorem mem_allRings_length {c : SweepCtx} {r : List Point} (hr : r ∈ allRings c) :
    r.length = c.angles.length := by
  have hstart : ∀ x ∈ startCap c, x.length = c.angles.length := by
    intro x hx
    simp only [startCap, List.mem_map] at hx
    obtain ⟨j, _, rfl⟩ := hx
    rw [startCapRing, length_translateRing, length_getCircle]
  have hend : ∀ x ∈ endCap c, x.length = c.angles.length := by
    intro x hx
    simp only [endCap, List.mem_map] at hx
    obtain ⟨j, _, rfl⟩ := hx
    rw [endCapRing, length_translateRing, length_getCircle]
  have hsweep : ∀ x ∈ sweepRings c, x.length = c.angles.length := by
    intro x hx
    rw [sweepRings, List.mem_flatMap] at hx
    obtain ⟨i, _, hmem⟩ := hx
    cases hj : jointB c i with
    | true =>
      simp only [emitIter, hj, if_true, List.mem_cons,
        List.not_mem_nil, or_false] at hmem
      rcases hmem with rfl | rfl | rfl <;>
        rw [length_translateRing, length_getCircle]
    | false =>
      simp only [emitIter, hj, Bool.false_eq_true, if_false, List.mem_cons,
        List.not_mem_nil, or_false] at hmem
      rcases hmem with rfl | rfl <;>
        rw [length_translateRing, length_getCircle]
  simp only [allRings, List.mem_append] at hr
  rcases hr with (hr | hr) | hr
  · cases hcl : c.lclosed with
    | false =>
      rw [hcl] at hr
      simp only [Bool.false_eq_true, if_false] at hr
      exact hstart r hr
    | true =>
      rw [hcl] at hr
      simp at hr
  · exact hsweep r hr
  · cases hcl : c.lclosed with
    | false =>
      rw [hcl] at hr
      simp only [Bool.false_eq_true, if_false] at hr
      exact hend r hr
    | true =>
      rw [hcl] at hr
      simp only [if_true, List.mem_singleton] at hr
      subst hr
      rw [closedEndRing, length_translateRing, length_getCircle]

theorem flatten_length_const {L : List (List Point)} {A : ℕ}
    (h : ∀ x ∈ L, x.length = A) : L.flatten.length = L.length * A := by
  induction L with
  | nil => simp
  | cons hd tl ih =>
    rw [List.flatten_cons, List.length_append, List.length_cons,
      h hd (List.mem_cons_self _ _), ih (fun x hx => h x (List.mem_cons_of_mem _ hx))]
    ring

theorem sweepRings_length_open (c : SweepCtx) (hcl : c.lclosed = false)
    (hN : 2 ≤ c.pp.length) :
    (sweepRings c).length = 2 * (c.pp.length - 1) + (c.pp.length - 2) := by
  rw [sweepRings, List.length_flatMap]
  simp only [Function.comp_def]
  have hsplit : c.pp.length - 1 = (c.pp.length - 2) + 1 := by omega
  rw [hsplit, List.range_succ, List.map_append, List.sum_append]
  have h1 : ((List.range (c.pp.length - 2)).map
      (fun i => (emitIter c i (frameAt c i)).length)) =
      (List.range (c.pp.length - 2)).map (fun _ => 3) := by
    apply List.map_congr_left
    intro i hi
    rw [List.mem_range] at hi
    have hj : jointB c i = true := by
      simp only [jointB, hcl, Bool.false_or, decide_eq_true_eq]
      omega
    rw [emitIter_length, hj, if_pos rfl]
  have h2 : jointB c (c.pp.length - 2) = false := by
    simp [jointB, hcl]
  rw [h1, List.map_const', List.sum_replicate, smul_eq_mul]
  simp only [List.map_cons, List.map_nil, emitIter_length, h2, Bool.false_eq_true,
    if_false, List.sum_cons, List.sum_nil, List.length_range]
  omega

theorem startCap_length (c : SweepCtx) : (startCap c).length = 5 := by
  rw [startCap]; rfl

theorem endCap_length (c : SweepCtx) : (endCap c).length = 6 := by
  rw [endCap]; rfl

theorem allRings_length_open (c : SweepCtx) (hcl : c.lclosed = false)
    (hN : 2 ≤ c.pp.length) :
    (allRings c).length = 5 + (2 * (c.pp.length - 1) + (c.pp.length - 2)) + 6 := by
  rw [allRings, hcl]
  simp only [Bool.false_eq_true, if_false, List.length_append, startCap_length,
    endCap_length, sweepRings_length_open c hcl hN]

theorem oneRound_length {v : ℕ} (hv : 1 ≤ v) : (oneRound v).length = v := by
  rw [oneRound, List.length_append, List.length_map, List.length_range]
  simp only [List.length_singleton]
  omega

theorem buildFaces_length (R : ℕ) {v : ℕ} (hv : 1 ≤ v) :
    (buildFaces R v).length = (R - 1) * v := by
  rw [buildFaces, List.length_flatMap]
  simp only [Function.comp_def]
  have h1 : (List.range (R - 1)).map
      (fun i => ((oneRound v).map (offsetQuad (i * v))).length) =
      (List.range (R - 1)).map (fun _ => v) := by
    apply List.map_congr_left
    intro i _
    rw [List.length_map, oneRound_length hv]
  rw [h1, List.map_const', List.sum_replicate, smul_eq_mul, List.length_range]

/-- For `1 ≤ vertex_num ≤ 62831` the `arange` on line 83 produces exactly
`vertex_num` samples (`2π/vertex_num > 0.0001`). -/
theorem numAngles_eq {v : ℕ} (h1 : 1 ≤ v) (h2 : v ≤ 62831) : numAngles v = v := by
  have hπ := Real.pi_gt_3141592
  have hv0 : (0 : ℝ) < v := by exact_mod_cast h1
  have hstep : 0 < 2 * Real.pi / v := by positivity
  rw [numAngles, Nat.ceil_eq_iff (by omega)]
  have hcast : ((v - 1 : ℕ) : ℝ) = (v : ℝ) - 1 := by
    push_cast [h1]
    ring
  constructor
  · rw [hcast, lt_div_iff hstep]
    have hkey : ((v : ℝ) - 1) * (2 * Real.pi / v) = 2 * Real.pi - 2 * Real.pi / v := by
      field_simp
      ring
    rw [hkey]
    have hbig : (0.0001 : ℝ) < 2 * Real.pi / v := by
      rw [lt_div_iff hv0]
      have : (v : ℝ) ≤ 62831 := by exact_mod_cast h2
      nlinarith
    linarith
  · rw [div_le_iff hstep]
    have hkey : (v : ℝ) * (2 * Real.pi / v) = 2 * Real.pi := by
      field_simp
    rw [hkey]
    norm_num

/-- At `vertex_num = 62832` the `arange` on line 83 produces only
`62831` samples (`2π/62832 < 0.0001`). -/
theorem numAngles_62832 : numAngles 62832 = 62831 := by
  have hπl := Real.pi_gt_3141592
  have hπu := Real.pi_lt_3141593
  have hstep : 0 < 2 * Real.pi / (62832 : ℕ) := by
    have := Real.pi_pos
    positivity
  rw [numAngles, Nat.ceil_eq_iff (by omega)]
  constructor
  · rw [show ((62831 - 1 : ℕ) : ℝ) = 62830 by norm_num, lt_div_iff hstep]
    push_cast
    nlinarith
  · rw [div_le_iff hstep]
    push_cast
    nlinarith

/-- Unfolding `lineToMesh` when no error path is taken. -/
theorem lineToMesh_ok (pp : List Point) (radius : Radius) (rs : List ℝ) (v : ℕ)
    (hr : processRadius pp radius = Except.ok rs) (hv : v ≠ 0)
    (hN : ¬ pp.length < 2) :
    lineToMesh pp radius v = Except.ok
      { vertices := (allRings (mkCtx pp rs v)).flatten
        normals := (allNormalRings (mkCtx pp rs v)).flatten
        faces := buildFaces (allRings (mkCtx pp rs v)).length v } := by
  unfold lineToMesh
  rw [hr]
  simp [hv, hN]

theorem isClosed_false_of_ne {pp : List Point}
    (h : pp.getD 0 pZero ≠ pp.getD (pp.length - 1) pZero) : isClosed pp = false := by
  rw [isClosed, if_neg h]

theorem isClosed_true_of_eq {pp : List Point}
    (h : pp.getD 0 pZero = pp.getD (pp.length - 1) pZero) : isClosed pp = true := by
  rw [isClosed, if_pos h]

/-! ## Concrete inputs used in instantiations -/

/-- A concrete open two-point curve. -/
def ppOpen2 : List Point := [⟨0, 0, 0⟩, ⟨1, 0, 0⟩]

theorem ppOpen2_length : ppOpen2.length = 2 := rfl

theorem ppOpen2_open : ppOpen2.getD 0 pZero ≠ ppOpen2.getD (ppOpen2.length - 1) pZero := by
  simp only [ppOpen2_length]
  simp only [ppOpen2, List.getD_cons_zero, List.getD_cons_succ]
  intro h
  have := congrArg Point.x h
  norm_num at this

/-! ## Claim C1 -/

/-- Claim C1 (amended): for every open curve of `N ≥ 2` points and every
`vertexNum` with `3 ≤ vertexNum ≤ 62831` (so that the `arange` guard
`2π/vertexNum > 0.0001` holds and each ring gets exactly `vertexNum`
vertices), `lineToMesh` emits `ringCount = 5 + 2*(N-1) + (N-2) + 6` rings,
`ringCount*vertexNum` vertices and `(ringCount-1)*vertexNum` quads. -/
theorem lineToMesh_open_counts (pp : List Point) (radius : Radius) (rs : List ℝ)
    (v : ℕ) (hr : processRadius pp radius = Except.ok rs) (hN : 2 ≤ pp.length)
    (hopen : pp.getD 0 pZero ≠ pp.getD (pp.length - 1) pZero)
    (hv3 : 3 ≤ v) (hv : v ≤ 62831) :
    Except.map (fun m => (m.vertices.length, m.faces.length))
        (lineToMesh pp radius v) =
      Except.ok ((5 + 2 * (pp.length - 1) + (pp.length - 2) + 6) * v,
        (5 + 2 * (pp.length - 1) + (pp.length - 2) + 6 - 1) * v) := by
  rw [lineToMesh_ok pp radius rs v hr (by omega) (by omega)]
  have hcl : (mkCtx pp rs v).lclosed = false := by
    simp only [mkCtx]
    exact isClosed_false_of_ne hopen
  have hang : (mkCtx pp rs v).angles.length = v := by
    simp only [mkCtx]
    rw [length_anglePairs, numAngles_eq (by omega) hv]
  have hNc : 2 ≤ (mkCtx pp rs v).pp.length := hN
  have hcount : (allRings (mkCtx pp rs v)).length =
      5 + (2 * (pp.length - 1) + (pp.length - 2)) + 6 :=
    allRings_length_open _ hcl hNc
  have hvert : (allRings (mkCtx pp rs v)).flatten.length =
      (allRings (mkCtx pp rs v)).length * v := by
    apply flatten_length_const
    intro x hx
    rw [mem_allRings_length hx, hang]
  simp only [Except.map]
  congr 1
  simp only [hvert, hcount, buildFaces_length _ (show 1 ≤ v by omega)]
  simp only [Prod.mk.injEq]
  constructor
  · congr 1
    omega
  · congr 1
    omega

/-- `lineToMesh_open_counts` at the 2-point curve, scalar radius, `vertexNum = 8`. -/
theorem lineToMesh_open_counts_witness :
    (processRadius ppOpen2 (Radius.scalar 1) =
        Except.ok (List.replicate ppOpen2.length 1) ∧
      2 ≤ ppOpen2.length ∧
      ppOpen2.getD 0 pZero ≠ ppOpen2.getD (ppOpen2.length - 1) pZero ∧
      3 ≤ 8 ∧ 8 ≤ 62831) ∧
    Except.map (fun m => (m.vertices.length, m.faces.length))
        (lineToMesh ppOpen2 (Radius.scalar 1) 8) =
      Except.ok ((5 + 2 * (ppOpen2.length - 1) + (ppOpen2.length - 2) + 6) * 8,
        (5 + 2 * (ppOpen2.length - 1) + (ppOpen2.length - 2) + 6 - 1) * 8) :=
  ⟨⟨rfl, by norm_num [ppOpen2], ppOpen2_open, by norm_num, by norm_num⟩,
    lineToMesh_open_counts ppOpen2 (Radius.scalar 1) (List.replicate ppOpen2.length 1)
      8 rfl (by norm_num [ppOpen2]) ppOpen2_open (by norm_num) (by norm_num)⟩

/-- Claim C1 counterexample: at `vertexNum = 62832` the `arange` step
`2π/62832` falls below the `0.0001` end guard, so every ring has only
`62831` vertices: on the open 2-point curve (`ringCount = 13`) the mesh has
`13*62831` vertices, not `ringCount*vertexNum = 13*62832`. -/
theorem lineToMesh_counts_vertexNum_62832 :
    Except.map (fun m => m.vertices.length)
        (lineToMesh ppOpen2 (Radius.scalar 1) 62832) =
      Except.ok (13 * 62831) ∧
    13 * 62831 ≠
      (5 + 2 * (ppOpen2.length - 1) + (ppOpen2.length - 2) + 6) * 62832 := by
  constructor
  · rw [lineToMesh_ok ppOpen2 (Radius.scalar 1) (List.replicate ppOpen2.length 1)
      62832 rfl (by norm_num) (by simp [ppOpen2])]
    have hcl : (mkCtx ppOpen2 (List.replicate ppOpen2.length 1) 62832).lclosed = false := by
      simp only [mkCtx]
      exact isClosed_false_of_ne ppOpen2_open
    have hang : (mkCtx ppOpen2 (List.replicate ppOpen2.length 1) 62832).angles.length =
        62831 := by
      simp only [mkCtx]
      rw [length_anglePairs, numAngles_62832]
    have hNc : 2 ≤ (mkCtx ppOpen2 (List.replicate ppOpen2.length 1) 62832).pp.length := by
      simp [mkCtx, ppOpen2]
    have hcount : (allRings (mkCtx ppOpen2 (List.replicate ppOpen2.length 1) 62832)).length =
        13 := by
      rw [allRings_length_open _ hcl hNc]
      simp only [mkCtx]
      simp [ppOpen2]
    have hvert : (allRings (mkCtx ppOpen2 (List.replicate ppOpen2.length 1)
        62832)).flatten.length = 13 * 62831 := by
      rw [flatten_length_const (fun x hx => by rw [mem_allRings_length hx, hang]),
        hcount]
    simp only [Except.map]
    rw [hvert]
  · norm_num [ppOpen2]

/-! ## Claim C8 -/

/-- Claim C8: a sequential radius whose length differs from the number of
curve points makes `lineToMesh` fail immediately with the length-mismatch
`ValueError` (line 75-76), before any geometry is computed; no partial mesh
is produced. -/
theorem lineToMesh_radius_mismatch (pp : List Point) (rs : List ℝ) (v : ℕ)
    (h : rs.length ≠ pp.length) :
    lineToMesh pp (Radius.seq rs) v =
      Except.error "Len of radii much match len of points." := by
  unfold lineToMesh processRadius
  simp [h]

/-- `lineToMesh_radius_mismatch` at a radius sequence of length `N - 1 = 1`
against the 2-point curve. -/
theorem lineToMesh_radius_mismatch_witness :
    ([(1 : ℝ)].length ≠ ppOpen2.length) ∧
    lineToMesh ppOpen2 (Radius.seq [(1 : ℝ)]) 8 =
      Except.error "Len of radii much match len of points." :=
  ⟨by simp [ppOpen2], lineToMesh_radius_mismatch _ _ _ (by simp [ppOpen2])⟩

/-! ## Claim C3 -/

/-- Claim C3 counterexample: `vertex_num = 2 < 3` on a valid 2-point curve is
not rejected — `lineToMesh` returns a (degenerate) mesh instead of an
`InvalidInput` error. -/
theorem lineToMesh_vertexNum2_no_error :
    (Except.map (fun _ => 0) (lineToMesh ppOpen2 (Radius.scalar 1) 2) =
      Except.ok (0 : ℕ)) := by
  rw [lineToMesh_ok ppOpen2 (Radius.scalar 1) (List.replicate ppOpen2.length 1) 2
    rfl (by norm_num) (by simp [ppOpen2])]
  rfl

/-- Claim C3 (amended): a curve of fewer than 2 points does make `lineToMesh`
fail — with the numpy zero-size-reduction `ValueError` raised while computing
the buffer distance (line 89), not an upfront validation — provided the radius
check passes and `vertex_num ≠ 0`; `vertex_num < 3` by itself is not rejected. -/
theorem lineToMesh_short_curve_fails (pp : List Point) (radius : Radius)
    (rs : List ℝ) (v : ℕ) (hr : processRadius pp radius = Except.ok rs)
    (hv : v ≠ 0) (hN : pp.length < 2) :
    lineToMesh pp radius v = Except.error "zero-size array to reduction operation" := by
  unfold lineToMesh
  rw [hr]
  simp [hv, hN]

/-- `lineToMesh_short_curve_fails` at the empty curve and `vertex_num = 2`. -/
theorem lineToMesh_short_curve_fails_witness :
    (processRadius [] (Radius.scalar 1) =
        Except.ok (List.replicate ([] : List Point).length 1) ∧
      (2 : ℕ) ≠ 0 ∧ ([] : List Point).length < 2) ∧
    lineToMesh [] (Radius.scalar 1) 2 =
      Except.error "zero-size array to reduction operation" :=
  ⟨⟨rfl, by norm_num, by simp⟩,
    lineToMesh_short_curve_fails _ _ _ _ rfl (by norm_num) (by simp)⟩

/-! ## Claim C4 -/

/-- Modelled from the spec's words (§4.4): round `k` of the face topology,
quads `(j, j+1, v+j+1, v+j)` for `j in [0, v-1)` plus the wrap-around closing
quad `(v-1, 0, v, 2v-1)`, all offset by `k*v`. -/
def roundSpec (v k : ℕ) : List Quad :=
  (List.range (v - 1)).map
    (fun j => ⟨k * v + j, k * v + (j + 1), k * v + (v + j + 1), k * v + (v + j)⟩) ++
    [⟨k * v + (v - 1), k * v + 0, k * v + v, k * v + (2 * v - 1)⟩]

/-- Claim C4: the topology builder emits, for every round
`k in [0, ringCount-1)`, exactly the `vertexNum` spec quads offset by
`k*vertexNum`, and `(ringCount-1)*vertexNum` quads in total. -/
theorem buildFaces_rounds (n_cylinders v : ℕ) (hv : 1 ≤ v) :
    buildFaces n_cylinders v = (List.range (n_cylinders - 1)).flatMap (roundSpec v) ∧
    (buildFaces n_cylinders v).length = (n_cylinders - 1) * v := by
  refine ⟨?_, buildFaces_length _ hv⟩
  rw [buildFaces]
  have hround : ∀ k : ℕ, (oneRound v).map (offsetQuad (k * v)) = roundSpec v k := by
    intro k
    rw [oneRound, roundSpec, List.map_append, List.map_map]
    congr 1
    · apply List.map_congr_left
      intro j _
      simp only [Function.comp_apply, offsetQuad, Quad.mk.injEq]
      omega
    · have hlast : offsetQuad (k * v) ⟨v - 1, 0, v, 2 * v - 1⟩ =
          (⟨k * v + (v - 1), k * v + 0, k * v + v, k * v + (2 * v - 1)⟩ : Quad) := by
        simp only [offsetQuad, Quad.mk.injEq]
        refine ⟨?_, ?_, ?_, ?_⟩ <;> omega
      simp [hlast]
  simp only [hround]

/-- `buildFaces_rounds` at `ringCount = 3`, `vertexNum = 4`. -/
theorem buildFaces_rounds_witness :
    (1 ≤ 4) ∧
    (buildFaces 3 4 = (List.range (3 - 1)).flatMap (roundSpec 4) ∧
      (buildFaces 3 4).length = (3 - 1) * 4) :=
  ⟨by norm_num, buildFaces_rounds 3 4 (by norm_num)⟩

/-! ## Claim C2 -/

theorem Point.norm_smul_neg_one (q : Point) : (Point.smul (-1) q).norm = q.norm := by
  rw [Point.norm_smul]
  norm_num

theorem Point.normalize_smul_neg_one (q : Point) :
    (Point.smul (-1) q).normalize = Point.smul (-1) q.normalize := by
  unfold Point.normalize
  rw [Point.norm_smul_neg_one]
  apply Point.ext_xyz <;> simp [Point.smul]

theorem Point.smul_neg_one_sub (a b : Point) :
    Point.smul (-1) (Point.sub a b) = Point.sub b a := by
  apply Point.ext_xyz <;> simp [Point.smul, Point.sub]

/-- `-normalize(a - b) = normalize(b - a)`. -/
theorem Point.neg_normalize_sub (a b : Point) :
    Point.smul (-1) (Point.sub a b).normalize = (Point.sub b a).normalize := by
  rw [← Point.normalize_smul_neg_one, Point.smul_neg_one_sub]

theorem lineNormals_getD_of_lt (pp : List Point) (i : ℕ) (hN : 2 ≤ pp.length)
    (hi : i ≤ pp.length - 2) :
    (lineNormals pp).getD i pZero =
      (Point.sub (pp.getD i pZero) (pp.getD (i + 1) pZero)).normalize := by
  have hzl : (List.zipWith Point.sub (pp.drop 1) pp.dropLast).length = pp.length - 1 := by
    rw [List.length_zipWith, List.length_drop, List.length_dropLast]
    omega
  have hilt : i < pp.length - 1 := by omega
  have hi1 : i + 1 < pp.length := by omega
  have hi0 : i < pp.length := by omega
  have hidrop : i < (pp.drop 1).length := by
    rw [List.length_drop]; omega
  have hidl : i < pp.dropLast.length := by
    rw [List.length_dropLast]; omega
  rw [lineNormals, List.map_append, List.getD_eq_getElem?_getD,
    List.getElem?_append_left (by rw [List.length_map, hzl]; omega),
    List.getElem?_map]
  rw [List.getElem?_eq_getElem (by rw [hzl]; omega)]
  simp only [Option.map_some', Option.getD_some]
  rw [List.getElem_zipWith]
  have hdrop : (pp.drop 1)[i] = pp[i + 1] := by
    rw [List.getElem_drop]
    congr 1
    omega
  have hdl : pp.dropLast[i] = pp[i] := List.getElem_dropLast _ _ _
  rw [hdrop, hdl, Point.neg_normalize_sub]
  rw [List.getD_eq_getElem pp pZero hi0, List.getD_eq_getElem pp pZero hi1]

theorem lineNormals_getD_last (pp : List Point) (hN : 2 ≤ pp.length) :
    (lineNormals pp).getD (pp.length - 1) pZero =
      (if isClosed pp then Point.sub (pp.getD 1 pZero) (pp.getD 0 pZero)
       else Point.sub (pp.getD (pp.length - 1) pZero)
         (pp.getD (pp.length - 2) pZero)).normalize := by
  have hzl : (List.zipWith Point.sub (pp.drop 1) pp.dropLast).length = pp.length - 1 := by
    rw [List.length_zipWith, List.length_drop, List.length_dropLast]
    omega
  rw [lineNormals, List.map_append, List.getD_eq_getElem?_getD,
    List.getElem?_append_right (by rw [List.length_map, hzl])]
  rw [List.length_map, hzl, Nat.sub_self]
  simp only [List.map_cons, List.map_nil, List.getElem?_cons_zero, Option.getD_some]
  cases hcl : isClosed pp with
  | true => rw [if_pos rfl, if_pos rfl, Point.neg_normalize_sub]
  | false => rw [if_neg (by simp), if_neg (by simp), Point.neg_normalize_sub]

/-- Claim C2 (amended): for every curve of `N ≥ 2` points, `normal[i]` is the
normalized `pp[i] - pp[i+1]` for `i ≤ N-2`, and — because the appended wrap
entry is also run through the global `-1 * normals.normalize()` — the final
entry `normal[N-1]` is the normalized `pp[1] - pp[0]` when the curve is closed
and the normalized `pp[N-1] - pp[N-2]` when it is open (the negation of the
values the claim states). -/
theorem lineNormals_spec (pp : List Point) (i : ℕ) (hN : 2 ≤ pp.length)
    (hi : i ≤ pp.length - 2) :
    (lineNormals pp).getD i pZero =
      (Point.sub (pp.getD i pZero) (pp.getD (i + 1) pZero)).normalize ∧
    (lineNormals pp).getD (pp.length - 1) pZero =
      (if isClosed pp then Point.sub (pp.getD 1 pZero) (pp.getD 0 pZero)
       else Point.sub (pp.getD (pp.length - 1) pZero)
         (pp.getD (pp.length - 2) pZero)).normalize :=
  ⟨lineNormals_getD_of_lt pp i hN hi, lineNormals_getD_last pp hN⟩

/-- `lineNormals_spec` at the open 2-point curve and `i = 0`. -/
theorem lineNormals_spec_witness :
    (2 ≤ ppOpen2.length ∧ 0 ≤ ppOpen2.length - 2) ∧
    ((lineNormals ppOpen2).getD 0 pZero =
      (Point.sub (ppOpen2.getD 0 pZero) (ppOpen2.getD (0 + 1) pZero)).normalize ∧
    (lineNormals ppOpen2).getD (ppOpen2.length - 1) pZero =
      (if isClosed ppOpen2 then
        Point.sub (ppOpen2.getD 1 pZero) (ppOpen2.getD 0 pZero)
       else Point.sub (ppOpen2.getD (ppOpen2.length - 1) pZero)
         (ppOpen2.getD (ppOpen2.length - 2) pZero)).normalize) :=
  ⟨⟨by norm_num [ppOpen2], by omega⟩,
    lineNormals_spec ppOpen2 0 (by norm_num [ppOpen2]) (by omega)⟩

/-- Claim C2 counterexample: on the open curve `[(0,0,0), (1,0,0)]` the final
tangent entry is `(1,0,0)`, which is not the claimed duplicate
`normalize(pp[-2] - pp[-1]) = (-1,0,0)`. -/
theorem lineNormals_last_not_duplicate :
    (lineNormals ppOpen2).getD 1 pZero ≠
      (Point.sub (ppOpen2.getD 0 pZero) (ppOpen2.getD 1 pZero)).normalize := by
  have hne : Point.norm ⟨1, 0, 0⟩ = 1 := by
    rw [Point.norm_eq_one_iff]
    norm_num [Point.normSq, Point.dot]
  have hne' : Point.norm ⟨-1, 0, 0⟩ = 1 := by
    rw [Point.norm_eq_one_iff]
    norm_num [Point.normSq, Point.dot]
  have hfalse : isClosed ppOpen2 = false := isClosed_false_of_ne ppOpen2_open
  have h := lineNormals_getD_last ppOpen2 (by norm_num [ppOpen2])
  rw [if_neg (by rw [hfalse]; simp)] at h
  have hsub : Point.sub (ppOpen2.getD (ppOpen2.length - 1) pZero)
      (ppOpen2.getD (ppOpen2.length - 2) pZero) = ⟨1, 0, 0⟩ := by
    simp [ppOpen2, Point.sub]
  rw [hsub] at h
  have hLval : (⟨1, 0, 0⟩ : Point).normalize = ⟨1, 0, 0⟩ := by
    unfold Point.normalize
    rw [hne]
    apply Point.ext_xyz <;> simp [Point.smul]
  rw [hLval] at h
  have hR : (Point.sub (ppOpen2.getD 0 pZero) (ppOpen2.getD 1 pZero)).normalize =
      ⟨-1, 0, 0⟩ := by
    have hsub' : Point.sub (ppOpen2.getD 0 pZero) (ppOpen2.getD 1 pZero) =
        ⟨-1, 0, 0⟩ := by
      simp [ppOpen2, Point.sub]
    rw [hsub']
    unfold Point.normalize
    rw [hne']
    apply Point.ext_xyz <;> simp [Point.smul]
  rw [hR]
  rw [show (1 : ℕ) = ppOpen2.length - 1 from rfl, h]
  intro hcontra
  have := congrArg Point.x hcontra
  norm_num at this

/-! ## Claim C5 -/

/-- Modelled from the spec's words (§4.3, Sweep/Joint): the joint ring after
segment `i` — tangent `normalize(normal[i] + normal[i+1])`, radius
`radiusProfile[i+1]`, frame recomputed by the frame propagator, center
`0.5858*pp[i+1] + 0.4142*(0.5*((pp[i+1] + bufferDistance*normal[i+1]) +
(pp[i+1] - bufferDistance*normal[i])))`. -/
noncomputable def jointRingSpec (c : SweepCtx) (i : ℕ) (f1 : Point × Point) :
    List Point :=
  let tangent :=
    (Point.add (c.normals.getD i pZero) (c.normals.getD (i + 1) pZero)).normalize
  let fj := getSpanVectors tangent f1.1 f1.2
  let center :=
    Point.add (Point.smul 0.5858 (c.pp.getD (i + 1) pZero))
      (Point.smul 0.4142 (Point.smul 0.5
        (Point.add
          (Point.add (c.pp.getD (i + 1) pZero)
            (Point.smul c.bufdist (c.normals.getD (i + 1) pZero)))
          (Point.sub (c.pp.getD (i + 1) pZero)
            (Point.smul c.bufdist (c.normals.getD i pZero))))))
  (getCircle c.angles fj.1 fj.2).map
    (fun q => Point.add (Point.smul (c.radius.getD (i + 1) 0) q) center)

/-- Claim C5: every sweep iteration emits its two cylinder rings followed by
exactly one joint ring matching the spec's construction (with the constants
0.5858 and 0.4142 and radius `radius[i+1]`), except on the final segment of an
open curve (`jointB c i = false`), where the loop breaks after the two rings. -/
theorem emitIter_joint_spec (c : SweepCtx) (i : ℕ) (f : Point × Point) :
    emitIter c i f =
      (if jointB c i then
        [translateRing (c.radius.getD i 0) (ring1Center c i)
            (getCircle c.angles (frameRing c i f).1 (frameRing c i f).2),
          translateRing (c.radius.getD (i + 1) 0) (ring2Center c i)
            (getCircle c.angles (frameRing c i f).1 (frameRing c i f).2),
          jointRingSpec c i (frameRing c i f)]
       else
        [translateRing (c.radius.getD i 0) (ring1Center c i)
            (getCircle c.angles (frameRing c i f).1 (frameRing c i f).2),
          translateRing (c.radius.getD (i + 1) 0) (ring2Center c i)
            (getCircle c.angles (frameRing c i f).1 (frameRing c i f).2)]) ∧
    (jointB c i = false ↔ c.lclosed = false ∧ i = c.pp.length - 2) := by
  constructor
  · cases hj : jointB c i with
    | true =>
      simp only [emitIter, hj, if_true]
      rfl
    | false =>
      simp only [emitIter, hj, Bool.false_eq_true, if_false]
  · simp only [jointB, Bool.or_eq_false_iff, decide_eq_false_iff_not,
      Decidable.not_not]

/-! ## Claim C6 -/

/-- A concrete closed triangle curve (`pp[0] == pp[-1]`). -/
def ppTri : List Point := [⟨0, 0, 0⟩, ⟨1, 0, 0⟩, ⟨0, 1, 0⟩, ⟨0, 0, 0⟩]

theorem lineNormals_length (pp : List Point) (hN : 1 ≤ pp.length) :
    (lineNormals pp).length = pp.length := by
  rw [lineNormals, List.length_map, List.length_append, List.length_zipWith,
    List.length_drop, List.length_dropLast]
  simp only [List.length_singleton]
  omega

theorem norm_unitX : Point.norm ⟨1, 0, 0⟩ = 1 := by
  rw [Point.norm_eq_one_iff]
  norm_num [Point.normSq, Point.dot]

theorem norm_negUnitX : Point.norm ⟨-1, 0, 0⟩ = 1 := by
  rw [Point.norm_eq_one_iff]
  norm_num [Point.normSq, Point.dot]

theorem normalize_unitX : (⟨1, 0, 0⟩ : Point).normalize = ⟨1, 0, 0⟩ := by
  unfold Point.normalize
  rw [norm_unitX]
  apply Point.ext_xyz <;> simp [Point.smul]

theorem normalize_negUnitX : (⟨-1, 0, 0⟩ : Point).normalize = ⟨-1, 0, 0⟩ := by
  unfold Point.normalize
  rw [norm_negUnitX]
  apply Point.ext_xyz <;> simp [Point.smul]

theorem ppTri_closed : isClosed ppTri = true :=
  isClosed_true_of_eq (by simp [ppTri])

theorem ppTri_normals_first : (lineNormals ppTri).getD 0 pZero = ⟨-1, 0, 0⟩ := by
  rw [lineNormals_getD_of_lt ppTri 0 (by norm_num [ppTri]) (by norm_num [ppTri])]
  have hsub : Point.sub (ppTri.getD 0 pZero) (ppTri.getD (0 + 1) pZero) =
      ⟨-1, 0, 0⟩ := by
    simp [ppTri, Point.sub]
  rw [hsub, normalize_negUnitX]

theorem ppTri_normals_last : (lineNormals ppTri).getD 3 pZero = ⟨1, 0, 0⟩ := by
  have h : (lineNormals ppTri).getD 3 pZero =
      (if isClosed ppTri then Point.sub (ppTri.getD 1 pZero) (ppTri.getD 0 pZero)
       else Point.sub (ppTri.getD (ppTri.length - 1) pZero)
         (ppTri.getD (ppTri.length - 2) pZero)).normalize :=
    lineNormals_getD_last ppTri (by norm_num [ppTri])
  rw [h, if_pos ppTri_closed]
  have hsub : Point.sub (ppTri.getD 1 pZero) (ppTri.getD 0 pZero) = ⟨1, 0, 0⟩ := by
    simp [ppTri, Point.sub]
  rw [hsub, normalize_unitX]

theorem ppTri_bufdist : bufdistOf ppTri (List.replicate 4 1) = 1 / 2.2 := by
  rw [bufdistOf]
  have hmax : (List.replicate 4 (1 : ℝ)).max?.getD 0 = 1 := by
    simp [List.max?]
  have hd2 : Point.distance (⟨1, 0, 0⟩ : Point) ⟨0, 0, 0⟩ = 1 := by
    unfold Point.distance
    have : Point.sub (⟨1, 0, 0⟩ : Point) ⟨0, 0, 0⟩ = ⟨1, 0, 0⟩ := by
      simp [Point.sub]
    rw [this, norm_unitX]
  have hd3 : Point.distance (⟨0, 1, 0⟩ : Point) ⟨1, 0, 0⟩ = Real.sqrt 2 := by
    unfold Point.distance Point.norm
    congr 1
    norm_num [Point.normSq, Point.dot, Point.sub]
  have hd4 : Point.distance (⟨0, 0, 0⟩ : Point) ⟨0, 1, 0⟩ = 1 := by
    unfold Point.distance
    have : Point.sub (⟨0, 0, 0⟩ : Point) ⟨0, 1, 0⟩ = ⟨0, -1, 0⟩ := by
      simp [Point.sub]
    rw [this, Point.norm_eq_one_iff]
    norm_num [Point.normSq, Point.dot]
  have hzip : List.zipWith Point.distance (ppTri.drop 1) ppTri.dropLast =
      [1, Real.sqrt 2, 1] := by
    simp only [ppTri, List.drop, List.dropLast, List.zipWith]
    rw [hd2, hd3, hd4]
  rw [hzip, hmax]
  have hsqrt2 : (1 : ℝ) ≤ Real.sqrt 2 := by
    rw [show (1 : ℝ) = Real.sqrt 1 from Real.sqrt_one.symm]
    exact Real.sqrt_le_sqrt (by norm_num)
  have hmin : ([1, Real.sqrt 2, 1] : List ℝ).min?.getD 0 = 1 := by
    simp [List.min?]
  rw [hmin]
  rw [min_eq_right (by norm_num)]

/-- Claim C6 (code bug): on the closed triangle, the final ring emitted after
the sweep loop is *not* identical in construction to the first sweep ring: its
center `pp[-1] + bufdist*normals[-1] = pp[0] - bufdist*normals[0]` is mirrored
from the first ring's center `pp[0] + bufdist*normals[0]`, because the wrap
entry appended to `normals` is itself negated by the later
`-1 * normals.normalize()` (line 100), making `normals[-1] = -normals[0]`. -/
theorem closedEnd_center_differs :
    isClosed ppTri = true ∧
    closedEndCenter (mkCtx ppTri (List.replicate 4 1) 8) ≠
      ring1Center (mkCtx ppTri (List.replicate 4 1) 8) 0 := by
  refine ⟨ppTri_closed, ?_⟩
  have hlen : (lineNormals ppTri).length = 4 := by
    rw [lineNormals_length ppTri (by norm_num [ppTri])]
    norm_num [ppTri]
  have hend : closedEndCenter (mkCtx ppTri (List.replicate 4 1) 8) =
      Point.add ⟨0, 0, 0⟩ (Point.smul (1 / 2.2) ⟨1, 0, 0⟩) := by
    rw [closedEndCenter]
    simp only [mkCtx]
    rw [hlen, ppTri_bufdist]
    rw [show (4 : ℕ) - 1 = 3 from rfl, ppTri_normals_last]
    have : ppTri.getD (ppTri.length - 1) pZero = ⟨0, 0, 0⟩ := by
      simp [ppTri]
    rw [this]
  have hfirst : ring1Center (mkCtx ppTri (List.replicate 4 1) 8) 0 =
      Point.add ⟨0, 0, 0⟩ (Point.smul (1 / 2.2) ⟨-1, 0, 0⟩) := by
    rw [ring1Center]
    simp only [mkCtx]
    rw [ppTri_bufdist, ppTri_normals_first]
    have : ppTri.getD 0 pZero = ⟨0, 0, 0⟩ := by
      simp [ppTri]
    rw [this]
  rw [hend, hfirst]
  intro hcontra
  have hx := congrArg Point.x hcontra
  simp only [Point.add, Point.smul] at hx
  norm_num at hx

/-! ## Claim C10 -/

theorem capScale_five : capScale 5 = 0 := by
  rw [capScale]
  norm_num

/-- The start-cap ring at `j = 5` collapses to its apex
`pp[0] - bufferDistance*normal[0]`: the scale `sqrt(1-(5/5)^2)` is `0`. -/
theorem startCapRing_five (c : SweepCtx) :
    startCapRing c 5 = List.replicate c.angles.length
      (Point.sub (c.pp.getD 0 pZero)
        (Point.smul c.bufdist (c.normals.getD 0 pZero))) := by
  rw [startCapRing, translateRing]
  have hpt : ∀ q ∈ getCircle c.angles (frame0 c).1 (frame0 c).2,
      Point.add (Point.smul (capScale 5 * c.radius.getD 0 0) q)
        (Point.sub (c.pp.getD 0 pZero)
          (Point.smul ((5 : ℕ) / 5 * c.bufdist) (c.normals.getD 0 pZero))) =
      Point.sub (c.pp.getD 0 pZero)
        (Point.smul c.bufdist (c.normals.getD 0 pZero)) := by
    intro q _
    rw [capScale_five]
    apply Point.ext_xyz <;>
      simp [Point.add, Point.smul, Point.sub]
  rw [List.map_congr_left hpt, List.map_const', length_getCircle]

/-- The end-cap ring at `j = 5` collapses to its apex
`pp[-1] + bufferDistance*normal[-1]`. -/
theorem endCapRing_five (c : SweepCtx) :
    endCapRing c 5 = List.replicate c.angles.length
      (Point.add (c.pp.getD (c.pp.length - 1) pZero)
        (Point.smul c.bufdist (c.normals.getD (c.normals.length - 1) pZero))) := by
  rw [endCapRing, translateRing]
  have hpt : ∀ q ∈ getCircle c.angles (frameAt c (c.pp.length - 1)).1
      (frameAt c (c.pp.length - 1)).2,
      Point.add (Point.smul (capScale 5 * c.radius.getD (c.radius.length - 1) 0) q)
        (Point.add (c.pp.getD (c.pp.length - 1) pZero)
          (Point.smul ((5 : ℕ) / 5 * c.bufdist)
            (c.normals.getD (c.normals.length - 1) pZero))) =
      Point.add (c.pp.getD (c.pp.length - 1) pZero)
        (Point.smul c.bufdist (c.normals.getD (c.normals.length - 1) pZero)) := by
    intro q _
    rw [capScale_five]
    apply Point.ext_xyz <;>
      simp [Point.add, Point.smul, Point.sub]
  rw [List.map_congr_left hpt, List.map_const', length_getCircle]

/-- Claim C10 (amended): for an open curve and `1 ≤ vertexNum ≤ 62831` (the
range in which each ring has exactly `vertexNum` vertices, cf. the `arange`
guard), the first emitted ring is `vertexNum` coincident copies of the start
apex `pp[0] - bufferDistance*normal[0]`, and the last emitted ring is
`vertexNum` coincident copies of the end apex
`pp[-1] + bufferDistance*normal[-1]`. -/
theorem openCaps_apex_rings (pp : List Point) (rs : List ℝ) (v : ℕ)
    (hopen : pp.getD 0 pZero ≠ pp.getD (pp.length - 1) pZero)
    (hv1 : 1 ≤ v) (hv : v ≤ 62831) :
    (allRings (mkCtx pp rs v)).head? =
      some (List.replicate v
        (Point.sub (pp.getD 0 pZero)
          (Point.smul (bufdistOf pp rs) ((lineNormals pp).getD 0 pZero)))) ∧
    (allRings (mkCtx pp rs v)).getLast? =
      some (List.replicate v
        (Point.add (pp.getD (pp.length - 1) pZero)
          (Point.smul (bufdistOf pp rs)
            ((lineNormals pp).getD ((lineNormals pp).length - 1) pZero)))) := by
  have hcl : (mkCtx pp rs v).lclosed = false := by
    simp only [mkCtx]
    exact isClosed_false_of_ne hopen
  have hang : (mkCtx pp rs v).angles.length = v := by
    simp only [mkCtx]
    rw [length_anglePairs, numAngles_eq hv1 hv]
  constructor
  · rw [allRings, hcl]
    simp only [Bool.false_eq_true, if_false, startCap, List.map_cons,
      List.cons_append, List.head?_cons]
    rw [startCapRing_five, hang]
    rfl
  · rw [allRings, hcl]
    simp only [Bool.false_eq_true, if_false, endCap, List.map_cons, List.map_nil]
    rw [List.getLast?_append, List.getLast?_append]
    simp only [List.getLast?_cons_cons, List.getLast?_singleton]
    rw [endCapRing_five, hang]
    rfl

/-- `openCaps_apex_rings` at the open 2-point curve, radius profile `[1, 1]`,
`vertexNum = 8`. -/
theorem openCaps_apex_rings_witness :
    (ppOpen2.getD 0 pZero ≠ ppOpen2.getD (ppOpen2.length - 1) pZero ∧
      1 ≤ 8 ∧ 8 ≤ 62831) ∧
    ((allRings (mkCtx ppOpen2 [1, 1] 8)).head? =
      some (List.replicate 8
        (Point.sub (ppOpen2.getD 0 pZero)
          (Point.smul (bufdistOf ppOpen2 [1, 1]) ((lineNormals ppOpen2).getD 0 pZero)))) ∧
    (allRings (mkCtx ppOpen2 [1, 1] 8)).getLast? =
      some (List.replicate 8
        (Point.add (ppOpen2.getD (ppOpen2.length - 1) pZero)
          (Point.smul (bufdistOf ppOpen2 [1, 1])
            ((lineNormals ppOpen2).getD ((lineNormals ppOpen2).length - 1) pZero))))) :=
  ⟨⟨ppOpen2_open, by norm_num, by norm_num⟩,
    openCaps_apex_rings ppOpen2 [1, 1] 8 ppOpen2_open (by norm_num) (by norm_num)⟩

/-- Claim C10 counterexample: at `vertexNum = 62832` the `arange` on line 83
produces only `62831` samples, so on the open 2-point curve the first emitted
ring is `62831` coincident copies of the start apex — not the claimed
`vertexNum = 62832` duplicated vertices. -/
theorem openCaps_apex_62832 :
    (allRings (mkCtx ppOpen2 [1, 1] 62832)).head? ≠
      some (List.replicate 62832
        (Point.sub (ppOpen2.getD 0 pZero)
          (Point.smul (bufdistOf ppOpen2 [1, 1])
            ((lineNormals ppOpen2).getD 0 pZero)))) := by
  have hcl : (mkCtx ppOpen2 [1, 1] 62832).lclosed = false := by
    simp only [mkCtx]
    exact isClosed_false_of_ne ppOpen2_open
  have hang : (mkCtx ppOpen2 [1, 1] 62832).angles.length = 62831 := by
    simp only [mkCtx]
    rw [length_anglePairs, numAngles_62832]
  have hhead : (allRings (mkCtx ppOpen2 [1, 1] 62832)).head? =
      some (List.replicate 62831
        (Point.sub (ppOpen2.getD 0 pZero)
          (Point.smul (bufdistOf ppOpen2 [1, 1])
            ((lineNormals ppOpen2).getD 0 pZero)))) := by
    rw [allRings, hcl]
    simp only [Bool.false_eq_true, if_false, startCap, List.map_cons,
      List.cons_append, List.head?_cons]
    rw [startCapRing_five, hang]
    rfl
  rw [hhead]
  intro hcontra
  have hlen : (62831 : ℕ) = 62832 := by
    have h := congrArg (fun o : Option (List Point) => (o.map List.length).getD 0)
      hcontra
    simp only [Option.map_some', Option.getD_some, List.length_replicate] at h
    exact h
  norm_num at hlen

/-! ## Claim C9 -/

/-- Claim C9: every vertex index of every quad in the face list lies in
`[0, ringCount*vertexNum)`, so every face index is a valid vertex index. -/
theorem buildFaces_indices_bounded (n_cylinders v : ℕ) (hv : 1 ≤ v) (q : Quad)
    (hq : q ∈ buildFaces n_cylinders v) :
    q.i0 < n_cylinders * v ∧ q.i1 < n_cylinders * v ∧
    q.i2 < n_cylinders * v ∧ q.i3 < n_cylinders * v := by
  rw [buildFaces, List.mem_flatMap] at hq
  obtain ⟨i, hi, hmem⟩ := hq
  rw [List.mem_range] at hi
  rw [List.mem_map] at hmem
  obtain ⟨q0, hq0, rfl⟩ := hmem
  have hbase : q0.i0 ≤ 2 * v - 1 ∧ q0.i1 ≤ 2 * v - 1 ∧
      q0.i2 ≤ 2 * v - 1 ∧ q0.i3 ≤ 2 * v - 1 := by
    rw [oneRound] at hq0
    rcases List.mem_append.mp hq0 with h | h
    · rw [List.mem_map] at h
      obtain ⟨j, hj, rfl⟩ := h
      rw [List.mem_range] at hj
      refine ⟨?_, ?_, ?_, ?_⟩ <;> dsimp only <;> omega
    · rw [List.mem_singleton] at h
      subst h
      refine ⟨?_, ?_, ?_, ?_⟩ <;> dsimp only <;> omega
  have hi2 : i + 2 ≤ n_cylinders := by omega
  have hmul : i * v + 2 * v ≤ n_cylinders * v := by
    calc i * v + 2 * v = (i + 2) * v := (Nat.add_mul i 2 v).symm
    _ ≤ n_cylinders * v := Nat.mul_le_mul_right v hi2
  simp only [offsetQuad]
  refine ⟨?_, ?_, ?_, ?_⟩ <;> dsimp only <;> omega

/-- `buildFaces_indices_bounded` at `ringCount = 3`, `vertexNum = 4` and the
first quad of the first round. -/
theorem buildFaces_indices_bounded_witness :
    ((1 ≤ 4) ∧ Quad.mk 0 1 5 4 ∈ buildFaces 3 4) ∧
    ((Quad.mk 0 1 5 4).i0 < 3 * 4 ∧ (Quad.mk 0 1 5 4).i1 < 3 * 4 ∧
      (Quad.mk 0 1 5 4).i2 < 3 * 4 ∧ (Quad.mk 0 1 5 4).i3 < 3 * 4) :=
  ⟨⟨by norm_num, by decide⟩,
    buildFaces_indices_bounded 3 4 (by norm_num) _ (by decide)⟩

end Visvis
